import Mathlib

/-!
Verification of the bigWig write pipeline of the `bigtools` repository.

The definitions below are shallow embeddings of the Rust source:
* `src/bbi/bigwigwrite.rs` — `BigWigWrite::process_chrom` (validation, running
  summary, primary batching, zoom ladder) and `encode_section`;
* `src/bigwig.rs` — `BigWigWrite::write_vals` (per-chromosome summary fold),
  `write_groups` (header fields), `write_zooms`, `get_rtreeindex`,
  `write_rtreeindex` / `write_tree` (R-tree serialization);
* `src/bbi/bedchromdata.rs` — `BedParserStreamingIterator::advance`
  (chromosome ordering check).

Machine numerics are modelled as follows: `u32`/`u64` fields become `Nat`
(the pipeline never exercises wraparound on valid inputs), and `f32`/`f64`
values become `ℚ`; the floating point operations used by the source
(`+`, `*`, `min`, `max`) are modelled exactly, which is faithful up to
rounding.  The `f64::MAX` / `f64::MIN` sentinels used to initialise running
minima and maxima are modelled by the exact rational value of `f64::MAX`.
Rust's `end` field is called `stop` here because `end` is a Lean keyword.
-/

namespace Bigtools

/-- Value record, from `src/bigwig.rs` lines 101-106 (`pub struct Value`). -/
structure Value where
  start : Nat
  stop : Nat
  value : ℚ
deriving DecidableEq, Repr

/-- Exact rational value of `f64::MAX` = (2^53 - 1) * 2^971. -/
def fMAX : ℚ := ((2 : ℚ) ^ 53 - 1) * 2 ^ 971

/-- Summary statistics, from `src/bbi/bigwigwrite.rs` (the `Summary` used by
`process_chrom`, constructed at lines 162-169 with `min_val = f64::MAX` and
`max_val = f64::MIN`). -/
structure Summary where
  total_items : Nat
  bases_covered : Nat
  min_val : ℚ
  max_val : ℚ
  sum : ℚ
  sum_squares : ℚ
deriving DecidableEq, Repr

/-- Initial summary of `process_chrom`, `src/bbi/bigwigwrite.rs` lines 162-169. -/
def initial_summary : Summary := ⟨0, 0, fMAX, -fMAX, 0, 0⟩

/-- Per-record summary update of `process_chrom`,
`src/bbi/bigwigwrite.rs` lines 221-229. -/
def update_summary (summary : Summary) (current_val : Value) : Summary :=
  let len : Nat := current_val.stop - current_val.start
  let val : ℚ := current_val.value
  ⟨summary.total_items + 1,
   summary.bases_covered + len,
   min summary.min_val val,
   max summary.max_val val,
   summary.sum + (len : ℚ) * val,
   summary.sum_squares + (len : ℚ) * val * val⟩

/-- Per-record validation of `process_chrom`, `src/bbi/bigwigwrite.rs`
lines 186-217: start/end order, chromosome bound, and overlap with the
peeked next value.  Error messages are abbreviated (the source interpolates
the offending positions into the message). -/
def validate_value (chrom_length : Nat) (current_val : Value) (peeked : Option Value) :
    Option String :=
  if current_val.start > current_val.stop then
    some "Invalid bed graph: start is greater than end"
  else if current_val.stop > chrom_length then
    some "Invalid bed graph: end is greater than the chromosome length"
  else
    match peeked with
    | some next_val =>
      if current_val.stop > next_val.start then
        some "Invalid bed graph: overlapping values"
      else none
    | none => none

/-- Main loop of `process_chrom` restricted to validation and the running
summary (`src/bbi/bigwigwrite.rs` lines 182-229 and 324-328): each record is
validated against the peeked next record, the summary is updated, and on an
empty chromosome the sentinel min/max are zeroed. -/
def process_chrom_go (chrom_length : Nat) (summary : Summary) :
    List Value → Except String Summary
  | [] =>
    .ok (if summary.total_items = 0 then
        ⟨summary.total_items, summary.bases_covered, 0, 0, summary.sum, summary.sum_squares⟩
      else summary)
  | current_val :: rest =>
    match validate_value chrom_length current_val rest.head? with
    | some e => .error e
    | none => process_chrom_go chrom_length (update_summary summary current_val) rest

/-- Summary-producing part of `BigWigWrite::process_chrom`
(`src/bbi/bigwigwrite.rs` lines 135-329), with the peeked next record
modelled as the head of the remaining list. -/
def process_chrom (chrom_length : Nat) (vals : List Value) : Except String Summary :=
  process_chrom_go chrom_length initial_summary vals

/-- The summary `process_chrom` produces on a fully valid stream: the fold of
`update_summary` with the empty-chromosome min/max zeroing of
`src/bbi/bigwigwrite.rs` lines 324-327. -/
def process_chrom_summary (vals : List Value) : Summary :=
  let s := vals.foldl update_summary initial_summary
  if s.total_items = 0 then
    ⟨s.total_items, s.bases_covered, 0, 0, s.sum, s.sum_squares⟩
  else s

/-- Specification-side predicate: every record of the stream passes the three
per-record checks of `process_chrom` (start ≤ end, end ≤ chromosome length,
no overlap with the peeked next record). -/
def valid_stream (chrom_length : Nat) : List Value → Prop
  | [] => True
  | v :: rest =>
    (v.start ≤ v.stop ∧ v.stop ≤ chrom_length ∧ ∀ n ∈ rest.head?, v.stop ≤ n.start) ∧
      valid_stream chrom_length rest

/-- Total summary as written to the file, from `src/bigwig.rs` lines 158-165
(`pub struct Summary`, the old-style five-field summary folded by
`write_vals`). -/
structure TotalSummary where
  bases_covered : Nat
  min_val : ℚ
  max_val : ℚ
  sum : ℚ
  sum_squares : ℚ
deriving DecidableEq, Repr

/-- Projection of a per-chromosome summary onto the five fields folded by
`write_vals`. -/
def summary_to_total (s : Summary) : TotalSummary :=
  ⟨s.bases_covered, s.min_val, s.max_val, s.sum, s.sum_squares⟩

/-- One step of the per-chromosome summary fold of `BigWigWrite::write_vals`,
`src/bigwig.rs` lines 1239-1250: the first chromosome summary is taken as is,
later ones are merged componentwise. -/
def fold_chrom_summary (summary : Option TotalSummary) (chrom_summary : TotalSummary) :
    Option TotalSummary :=
  match summary with
  | none => some chrom_summary
  | some s =>
    some ⟨s.bases_covered + chrom_summary.bases_covered,
          min s.min_val chrom_summary.min_val,
          max s.max_val chrom_summary.max_val,
          s.sum + chrom_summary.sum,
          s.sum_squares + chrom_summary.sum_squares⟩

/-- Completion of the fold, `src/bigwig.rs` lines 1253-1262: with no
chromosomes at all the summary is all zeros. -/
def write_vals_total_summary (chrom_summaries : List TotalSummary) : TotalSummary :=
  match chrom_summaries.foldl fold_chrom_summary none with
  | none => ⟨0, 0, 0, 0, 0⟩
  | some s => s

/-- Total summary produced by the writer for a list of per-chromosome record
streams: each chromosome is processed by `process_chrom` and the summaries
are folded by `write_vals`. -/
def total_summary_of (chroms : List (List Value)) : TotalSummary :=
  write_vals_total_summary (chroms.map fun c => summary_to_total (process_chrom_summary c))

/-- Primary-section batching loop of `process_chrom`,
`src/bbi/bigwigwrite.rs` lines 305-315: push the current record, then flush
the buffer when the peeked next record is absent or the buffer holds
`items_per_slot` records. -/
def primary_sections_go (items_per_slot : Nat) (items : List Value) :
    List Value → List (List Value)
  | [] => []
  | current_val :: rest =>
    let items := items ++ [current_val]
    if rest.isEmpty ∨ items_per_slot ≤ items.length then
      items :: primary_sections_go items_per_slot [] rest
    else
      primary_sections_go items_per_slot items rest

/-- The list of primary sections (as batches of records) emitted for one
chromosome. -/
def primary_sections (items_per_slot : Nat) (vals : List Value) : List (List Value) :=
  primary_sections_go items_per_slot [] vals

/-- Uncompressed byte size of a primary data section, from the field widths
written by `encode_section` (`src/bbi/bigwigwrite.rs` lines 339-356) and
`write_section` (`src/bigwig.rs` lines 857-875): five u32, two u8, one u16,
then u32 + u32 + f32 per record. -/
def write_section_size (item_count : Nat) : Nat :=
  4 + 4 + 4 + 4 + 4 + 1 + 1 + 2 + item_count * (4 + 4 + 4)

/-- Uncompressed byte size of a zoom section, from the field widths written by
`write_zoom_section` (`src/bigwig.rs` lines 893-909): four u32 and four f32
per record. -/
def write_zoom_section_size (item_count : Nat) : Nat :=
  item_count * (4 + 4 + 4 + 4 + 4 + 4 + 4 + 4)

/-- The `uncompress_buf_size` value `write_groups` records in the header,
`src/bigwig.rs` lines 738-744: a static bound `items_per_slot * 34`
when compressing, and `0` otherwise. -/
def write_groups_uncompress_buf_size (compress : Bool) (items_per_slot : Nat) : Nat :=
  if compress then items_per_slot * (1 + 1 + 2 + 4 + 4 + 4 + 4 + 8 + 8) else 0

/-- Chromosome ordering check performed when starting a new chromosome,
`src/bbi/bedchromdata.rs` lines 53-59 (`BedParserStreamingIterator::advance`):
if out-of-order chromosomes are not allowed and the previous chromosome name
is `≥` the new one, fail with the sort-order message. -/
def advance_order_check (allow_out_of_order_chroms : Bool) (last_chrom : Option String)
    (chrom : String) : Option String :=
  match last_chrom with
  | some c =>
    if allow_out_of_order_chroms = false ∧ chrom ≤ c then
      some "Input bedGraph not sorted by chromosome. Sort with sort -k1,1 -k2,2n."
    else none
  | none => none

/-- The three-chromosome end-to-end scenario of the spec (chr17). -/
def chr17_vals : List Value := [⟨1, 100, 1/2⟩, ⟨101, 200, 1/2⟩, ⟨201, 300, 1/2⟩]

/-- The three-chromosome end-to-end scenario of the spec (chr18). -/
def chr18_vals : List Value := [⟨1, 100, 1/2⟩, ⟨101, 200, 1/2⟩]

/-- The three-chromosome end-to-end scenario of the spec (chr19). -/
def chr19_vals : List Value := [⟨1, 100, 1/2⟩]

/-- The three-chromosome scenario, grouped by chromosome in input order. -/
def scenario_chroms : List (List Value) := [chr17_vals, chr18_vals, chr19_vals]

/-- Eight records on one chromosome at `[i*10, i*10+10)`, value 1.0. -/
def eight_records : List Value :=
  (List.range 8).map fun i => ⟨i * 10, i * 10 + 10, 1⟩

end Bigtools

namespace Bigtools

/-- C2: a record consumed by the chromosome-group processor passes validation
iff `start ≤ end`, `end ≤ chromosome length`, and (when a next record is
peekable) `current.end ≤ next.start`; and processing a stream succeeds iff
every consumed record satisfies these three conditions. -/
theorem C2_per_record_validation (chrom_length : Nat) :
    (∀ (current_val : Value) (peeked : Option Value),
        validate_value chrom_length current_val peeked = none ↔
          (current_val.start ≤ current_val.stop ∧ current_val.stop ≤ chrom_length ∧
            ∀ next_val ∈ peeked, current_val.stop ≤ next_val.start)) ∧
    ∀ vals : List Value,
        (∃ s, process_chrom chrom_length vals = Except.ok s) ↔
          valid_stream chrom_length vals := by
  have hval : ∀ (current_val : Value) (peeked : Option Value),
      validate_value chrom_length current_val peeked = none ↔
        (current_val.start ≤ current_val.stop ∧ current_val.stop ≤ chrom_length ∧
          ∀ next_val ∈ peeked, current_val.stop ≤ next_val.start) := by
    intro v peeked
    unfold validate_value
    rcases peeked with _ | n
    · constructor
      · intro h
        by_cases h1 : v.start > v.stop
        · simp [h1] at h
        · by_cases h2 : v.stop > chrom_length
          · simp [h1, h2] at h
          · exact ⟨by omega, by omega, by simp⟩
      · intro ⟨h1, h2, _⟩
        simp [Nat.not_lt.mpr h1, Nat.not_lt.mpr h2]
    · constructor
      · intro h
        by_cases h1 : v.start > v.stop
        · simp [h1] at h
        · by_cases h2 : v.stop > chrom_length
          · simp [h1, h2] at h
          · by_cases h3 : v.stop > n.start
            · simp [h1, h2, h3] at h
            · refine ⟨by omega, by omega, ?_⟩
              intro x hx
              simp at hx
              subst hx
              omega
      · intro ⟨h1, h2, h3⟩
        have h3' : v.stop ≤ n.start := h3 n rfl
        simp [Nat.not_lt.mpr h1, Nat.not_lt.mpr h2, Nat.not_lt.mpr h3']
  refine ⟨hval, ?_⟩
  have main : ∀ (vals : List Value) (s0 : Summary),
      (∃ s, process_chrom_go chrom_length s0 vals = Except.ok s) ↔
        valid_stream chrom_length vals := by
    intro vals
    induction vals with
    | nil => intro s0; simp [process_chrom_go, valid_stream]
    | cons v rest ih =>
      intro s0
      constructor
      · intro ⟨s, hs⟩
        unfold process_chrom_go at hs
        rcases hok : validate_value chrom_length v rest.head? with _ | e
        · rw [hok] at hs
          exact ⟨(hval v rest.head?).mp hok, (ih _).mp ⟨s, hs⟩⟩
        · rw [hok] at hs
          exact absurd hs (by simp)
      · intro ⟨hv, hrest⟩
        have hok : validate_value chrom_length v rest.head? = none :=
          (hval v rest.head?).mpr hv
        obtain ⟨s, hs⟩ := (ih (update_summary s0 v)).mpr hrest
        exact ⟨s, by unfold process_chrom_go; rw [hok]; exact hs⟩
  exact fun vals => main vals initial_summary

/-- C3: with `allow_out_of_order_chroms = false`, starting a new chromosome
errors iff its name is lexicographically `≤` the previously emitted one;
with the flag set, or on the first chromosome, no ordering error occurs. -/
theorem C3_order_check (allow_out_of_order_chroms : Bool) (last_chrom : Option String)
    (chrom : String) :
    (advance_order_check allow_out_of_order_chroms last_chrom chrom).isSome ↔
      (allow_out_of_order_chroms = false ∧ ∃ c, last_chrom = some c ∧ chrom ≤ c) := by
  rcases last_chrom with _ | c
  · simp [advance_order_check]
  · constructor
    · intro h
      simp only [advance_order_check] at h
      split at h
      · rename_i hcond
        exact ⟨hcond.1, c, rfl, hcond.2⟩
      · simp at h
    · intro ⟨hfl, c', hc', hle⟩
      injection hc' with hcc
      subst hcc
      simp [advance_order_check, hfl, hle]

/-- C10: an empty chromosome (and an input with no chromosomes at all)
produces the all-zero summary — the `f64::MAX` / `f64::MIN` sentinels are
replaced by zero. -/
theorem C10_empty_summary :
    process_chrom_summary [] = ⟨0, 0, 0, 0, 0, 0⟩ ∧
    process_chrom 1000 [] = Except.ok ⟨0, 0, 0, 0, 0, 0⟩ ∧
    total_summary_of [] = ⟨0, 0, 0, 0, 0⟩ := by
  refine ⟨rfl, rfl, rfl⟩

end Bigtools



namespace Bigtools

/-- Helper: full characterization of the primary batching loop, generalized
over the current buffer contents. -/
theorem primary_sections_go_spec (items_per_slot : Nat) (hips : 0 < items_per_slot) :
    ∀ (vals buf : List Value), buf.length < items_per_slot →
      ((primary_sections_go items_per_slot buf vals).flatten =
        if vals.isEmpty then [] else buf ++ vals) ∧
      (∀ s ∈ primary_sections_go items_per_slot buf vals,
        s ≠ [] ∧ s.length ≤ items_per_slot) ∧
      (∀ s ∈ (primary_sections_go items_per_slot buf vals).dropLast,
        s.length = items_per_slot) ∧
      (primary_sections_go items_per_slot buf vals = [] ↔ vals = []) := by
  intro vals
  induction vals with
  | nil =>
    intro buf hbuf
    simp [primary_sections_go]
  | cons v rest ih =>
    intro buf hbuf
    by_cases hrest : rest = []
    · subst hrest
      have hgo : primary_sections_go items_per_slot buf [v] = [buf ++ [v]] := by
        simp [primary_sections_go]
      rw [hgo]
      refine ⟨by simp, ?_, by simp, by simp⟩
      intro s hs
      rcases List.mem_cons.mp hs with h | h
      · subst h
        refine ⟨by simp, ?_⟩
        simp only [List.length_append, List.length_singleton]
        omega
      · simp at h
    · by_cases hfl : items_per_slot ≤ (buf ++ [v]).length
      · have hgo : primary_sections_go items_per_slot buf (v :: rest) =
            (buf ++ [v]) :: primary_sections_go items_per_slot [] rest := by
          simp only [primary_sections_go]
          rw [if_pos (Or.inr hfl)]
        have hIH := ih [] hips
        rw [hgo]
        have hlen : (buf ++ [v]).length = items_per_slot := by
          simp only [List.length_append, List.length_singleton] at hfl ⊢
          omega
        refine ⟨?_, ?_, ?_, by simp⟩
        · rw [List.flatten_cons, hIH.1]
          simp [hrest]
        · intro s hs
          rcases List.mem_cons.mp hs with h | h
          · subst h
            exact ⟨by simp, by rw [hlen]⟩
          · exact hIH.2.1 s h
        · have hne : primary_sections_go items_per_slot [] rest ≠ [] := by
            intro hc
            exact hrest (hIH.2.2.2.mp hc)
          rw [List.dropLast_cons_of_ne_nil hne]
          intro s hs
          rcases List.mem_cons.mp hs with h | h
          · subst h
            exact hlen
          · exact hIH.2.2.1 s h
      · have hlt : (buf ++ [v]).length < items_per_slot := by omega
        have hcond : ¬(rest.isEmpty = true ∨ items_per_slot ≤ (buf ++ [v]).length) := by
          push_neg
          exact ⟨by simpa using hrest, by omega⟩
        have hgo : primary_sections_go items_per_slot buf (v :: rest) =
            primary_sections_go items_per_slot (buf ++ [v]) rest := by
          simp only [primary_sections_go]
          rw [if_neg hcond]
        have hIH := ih (buf ++ [v]) hlt
        rw [hgo]
        refine ⟨?_, hIH.2.1, hIH.2.2.1, ?_⟩
        · rw [hIH.1]
          simp [hrest]
        · rw [hIH.2.2.2]
          simp [hrest]

/-- C6: the primary batch buffer is flushed into a section exactly when it
holds `items_per_slot` records or the iterator has no more items: sections
concatenate back to the input, every section is nonempty with at most
`items_per_slot` records, every section except the last has exactly
`items_per_slot` records, and with `items_per_slot = 4` the eight-record
scenario yields exactly two sections of four records each. -/
theorem C6_primary_batching :
    (∀ (items_per_slot : Nat) (vals : List Value), 0 < items_per_slot →
      (primary_sections items_per_slot vals).flatten = vals ∧
      (∀ s ∈ primary_sections items_per_slot vals,
        s ≠ [] ∧ s.length ≤ items_per_slot) ∧
      (∀ s ∈ (primary_sections items_per_slot vals).dropLast,
        s.length = items_per_slot)) ∧
    (primary_sections 4 eight_records).map List.length = [4, 4] := by
  constructor
  · intro items_per_slot vals hips
    have h := primary_sections_go_spec items_per_slot hips vals [] (by simpa using hips)
    refine ⟨?_, h.2.1, h.2.2.1⟩
    have h1 := h.1
    rcases vals with _ | ⟨v, rest⟩
    · simpa [primary_sections] using h1
    · simpa [primary_sections] using h1
  · decide

/-- C6 witness: the general batching theorem applied to the eight-record
scenario with `items_per_slot = 4`. -/
theorem C6_primary_batching_witness :
    (primary_sections 4 eight_records).flatten = eight_records ∧
    ∀ s ∈ (primary_sections 4 eight_records).dropLast, s.length = 4 :=
  ⟨(C6_primary_batching.1 4 eight_records (by decide)).1,
   (C6_primary_batching.1 4 eight_records (by decide)).2.2⟩

/-- All primary sections of the three-chromosome scenario (one chromosome at
a time, default `items_per_slot = 1024`). -/
def scenario_sections : List (List Value) :=
  (scenario_chroms.map (primary_sections 1024)).flatten

/-- C7 counterexample: on the three-chromosome scenario with default options
(`compress = true`, `items_per_slot = 1024`), the header records
`uncompress_buf_size = 36864` although the maximum uncompressed section size
across the file is 60 bytes — the recorded value is a static bound, not the
maximum over all sections. -/
theorem C7_counterexample :
    write_groups_uncompress_buf_size true 1024 = 36864 ∧
    (scenario_sections.map fun s => write_section_size s.length).foldl max 0 = 60 ∧
    (36864 : Nat) ≠ 60 := by
  refine ⟨by decide, by decide, by decide⟩

/-- C7 amended: the `uncompress_buf_size` recorded by `write_groups` is
`items_per_slot * 34` bytes when compression is on and `0` otherwise; when on,
it is an upper bound on the uncompressed size of every primary or zoom
section (whose item counts never exceed `items_per_slot`). -/
theorem C7_uncompress_bound (items_per_slot n : Nat) (h1 : 0 < items_per_slot)
    (h2 : n ≤ items_per_slot) :
    write_groups_uncompress_buf_size false items_per_slot = 0 ∧
    write_section_size n ≤ write_groups_uncompress_buf_size true items_per_slot ∧
    write_zoom_section_size n ≤ write_groups_uncompress_buf_size true items_per_slot := by
  refine ⟨rfl, ?_, ?_⟩ <;>
    simp only [write_section_size, write_zoom_section_size,
      write_groups_uncompress_buf_size, if_pos] <;>
    omega

/-- C7 witness: the bound at the concrete scenario values. -/
theorem C7_uncompress_bound_witness :
    write_section_size 3 ≤ write_groups_uncompress_buf_size true 1024 :=
  (C7_uncompress_bound 1024 3 (by decide) (by decide)).2.1

/-- C1 counterexample: on the three-chromosome scenario the total summary has
`bases_covered = 594` (each record spans 99 bases), not the 600 the claim
states. -/
theorem C1_scenario_counterexample :
    (total_summary_of scenario_chroms).bases_covered = 594 ∧ (594 : Nat) ≠ 600 := by
  refine ⟨by decide, by decide⟩

end Bigtools

namespace Bigtools

/-- Helper: all fields of the summary fold in closed form. -/
theorem foldl_update_fields (l : List Value) : ∀ s : Summary,
    (l.foldl update_summary s).total_items = s.total_items + l.length ∧
    (l.foldl update_summary s).bases_covered =
      s.bases_covered + (l.map fun v => v.stop - v.start).sum ∧
    (l.foldl update_summary s).sum =
      s.sum + (l.map fun v => ((v.stop - v.start : Nat) : ℚ) * v.value).sum ∧
    (l.foldl update_summary s).sum_squares =
      s.sum_squares + (l.map fun v => ((v.stop - v.start : Nat) : ℚ) * v.value * v.value).sum ∧
    (l.foldl update_summary s).min_val = (l.map Value.value).foldl min s.min_val ∧
    (l.foldl update_summary s).max_val = (l.map Value.value).foldl max s.max_val := by
  induction l with
  | nil => intro s; simp
  | cons v rest ih =>
    intro s
    simp only [List.foldl_cons, List.map_cons, List.sum_cons]
    have h := ih (update_summary s v)
    refine ⟨?_, ?_, ?_, ?_, ?_, ?_⟩
    · rw [h.1]; simp [update_summary]; omega
    · rw [h.2.1]; simp [update_summary]; omega
    · rw [h.2.2.1]; simp [update_summary]; ring
    · rw [h.2.2.2.1]; simp [update_summary]; ring
    · rw [h.2.2.2.2.1]; simp [update_summary]
    · rw [h.2.2.2.2.2]; simp [update_summary]

/-- Helper: a min-fold is below its starting point. -/
theorem foldl_min_le_init {α : Type} [LinearOrder α] (l : List α) :
    ∀ a : α, l.foldl min a ≤ a := by
  induction l with
  | nil => intro a; simp
  | cons x xs ih => intro a; exact le_trans (ih (min a x)) (min_le_left a x)

/-- Helper: a min-fold is below every element of the list. -/
theorem foldl_min_le_mem {α : Type} [LinearOrder α] (l : List α) :
    ∀ a : α, ∀ x ∈ l, l.foldl min a ≤ x := by
  induction l with
  | nil => intro a x hx; simp at hx
  | cons y ys ih =>
    intro a x hx
    rcases List.mem_cons.mp hx with h | h
    · subst h
      exact le_trans (foldl_min_le_init ys (min a x)) (min_le_right a x)
    · exact ih (min a y) x h

/-- Helper: a min-fold is either the starting point or an element. -/
theorem foldl_min_eq_or_mem {α : Type} [LinearOrder α] (l : List α) :
    ∀ a : α, l.foldl min a = a ∨ l.foldl min a ∈ l := by
  induction l with
  | nil => intro a; simp
  | cons x xs ih =>
    intro a
    rcases ih (min a x) with h | h
    · rcases min_choice a x with hax | hax
      · exact Or.inl (by rw [List.foldl_cons, h, hax])
      · exact Or.inr (by rw [List.foldl_cons, h, hax]; exact List.mem_cons_self x xs)
    · exact Or.inr (List.mem_cons_of_mem x h)

/-- Helper: min-folds starting at a min split off the extra argument. -/
theorem foldl_min_min {α : Type} [LinearOrder α] (l : List α) :
    ∀ a b : α, l.foldl min (min a b) = min a (l.foldl min b) := by
  induction l with
  | nil => intro a b; simp
  | cons x xs ih =>
    intro a b
    rw [List.foldl_cons, List.foldl_cons, min_assoc, ih]

/-- Helper: a min-fold over a nonempty list whose elements all lie below the
starting point is an element of the list. -/
theorem foldl_min_mem {α : Type} [LinearOrder α] (l : List α) (a : α) (hne : l ≠ [])
    (hb : ∀ x ∈ l, x ≤ a) : l.foldl min a ∈ l := by
  rcases foldl_min_eq_or_mem l a with h | h
  · obtain ⟨x0, hx0⟩ := List.exists_mem_of_ne_nil l hne
    have h1 : l.foldl min a ≤ x0 := foldl_min_le_mem l a x0 hx0
    have h2 : x0 = a := le_antisymm (hb x0 hx0) (h ▸ h1)
    rw [h, ← h2]
    exact hx0
  · exact h

/-- Helper: a max-fold is above its starting point. -/
theorem foldl_max_ge_init {α : Type} [LinearOrder α] (l : List α) :
    ∀ a : α, a ≤ l.foldl max a := by
  induction l with
  | nil => intro a; simp
  | cons x xs ih => intro a; exact le_trans (le_max_left a x) (ih (max a x))

/-- Helper: a max-fold is above every element of the list. -/
theorem foldl_max_ge_mem {α : Type} [LinearOrder α] (l : List α) :
    ∀ a : α, ∀ x ∈ l, x ≤ l.foldl max a := by
  induction l with
  | nil => intro a x hx; simp at hx
  | cons y ys ih =>
    intro a x hx
    rcases List.mem_cons.mp hx with h | h
    · subst h
      exact le_trans (le_max_right a x) (foldl_max_ge_init ys (max a x))
    · exact ih (max a y) x h

/-- Helper: a max-fold is either the starting point or an element. -/
theorem foldl_max_eq_or_mem {α : Type} [LinearOrder α] (l : List α) :
    ∀ a : α, l.foldl max a = a ∨ l.foldl max a ∈ l := by
  induction l with
  | nil => intro a; simp
  | cons x xs ih =>
    intro a
    rcases ih (max a x) with h | h
    · rcases max_choice a x with hax | hax
      · exact Or.inl (by rw [List.foldl_cons, h, hax])
      · exact Or.inr (by rw [List.foldl_cons, h, hax]; exact List.mem_cons_self x xs)
    · exact Or.inr (List.mem_cons_of_mem x h)

/-- Helper: max-folds starting at a max split off the extra argument. -/
theorem foldl_max_max {α : Type} [LinearOrder α] (l : List α) :
    ∀ a b : α, l.foldl max (max a b) = max a (l.foldl max b) := by
  induction l with
  | nil => intro a b; simp
  | cons x xs ih =>
    intro a b
    rw [List.foldl_cons, List.foldl_cons, max_assoc, ih]

/-- Helper: a max-fold over a nonempty list whose elements all lie above the
starting point is an element of the list. -/
theorem foldl_max_mem {α : Type} [LinearOrder α] (l : List α) (a : α) (hne : l ≠ [])
    (hb : ∀ x ∈ l, a ≤ x) : l.foldl max a ∈ l := by
  rcases foldl_max_eq_or_mem l a with h | h
  · obtain ⟨x0, hx0⟩ := List.exists_mem_of_ne_nil l hne
    have h1 : x0 ≤ l.foldl max a := foldl_max_ge_mem l a x0 hx0
    have h2 : x0 = a := le_antisymm (h ▸ h1) (hb x0 hx0)
    rw [h, ← h2]
    exact hx0
  · exact h

/-- Componentwise merge of two total summaries (the `Some` branch of the
`write_vals` fold, `src/bigwig.rs` lines 1243-1249). -/
def merge_total (s t : TotalSummary) : TotalSummary :=
  ⟨s.bases_covered + t.bases_covered,
   min s.min_val t.min_val,
   max s.max_val t.max_val,
   s.sum + t.sum,
   s.sum_squares + t.sum_squares⟩

/-- Helper: the option-valued fold of `write_vals` is the plain merge fold
once a first summary is present. -/
theorem foldl_fold_chrom_some (l : List TotalSummary) : ∀ s : TotalSummary,
    l.foldl fold_chrom_summary (some s) = some (l.foldl merge_total s) := by
  induction l with
  | nil => intro s; rfl
  | cons t ts ih =>
    intro s
    rw [List.foldl_cons, List.foldl_cons]
    exact ih (merge_total s t)

/-- Helper: `write_vals` on a nonempty list of chromosome summaries is the
merge fold started at the first summary. -/
theorem write_vals_total_summary_cons (t : TotalSummary) (ts : List TotalSummary) :
    write_vals_total_summary (t :: ts) = ts.foldl merge_total t := by
  unfold write_vals_total_summary
  rw [List.foldl_cons]
  show (match ts.foldl fold_chrom_summary (some t) with
    | none => (⟨0, 0, 0, 0, 0⟩ : TotalSummary)
    | some s => s) = ts.foldl merge_total t
  rw [foldl_fold_chrom_some]

/-- The raw per-chromosome summary fold, before the empty-chromosome
min/max zeroing. -/
def raw_summary (l : List Value) : Summary :=
  l.foldl update_summary initial_summary

/-- Helper: on a nonempty chromosome no zeroing happens. -/
theorem process_chrom_summary_eq_raw (l : List Value) (h : l ≠ []) :
    process_chrom_summary l = raw_summary l := by
  unfold process_chrom_summary raw_summary
  rw [if_neg]
  have ht := (foldl_update_fields l initial_summary).1
  intro hc
  rw [ht] at hc
  simp [initial_summary] at hc
  exact h hc

/-- Helper: merging the raw summaries of two streams is the raw summary of
their concatenation. -/
theorem merge_raw (a b : List Value) :
    merge_total (summary_to_total (raw_summary a)) (summary_to_total (raw_summary b)) =
      summary_to_total (raw_summary (a ++ b)) := by
  have hA := foldl_update_fields a initial_summary
  have hB := foldl_update_fields b initial_summary
  have hBA := foldl_update_fields b (a.foldl update_summary initial_summary)
  have hminA : (a.foldl update_summary initial_summary).min_val ≤ fMAX := by
    rw [hA.2.2.2.2.1, show initial_summary.min_val = fMAX from rfl]
    exact foldl_min_le_init _ _
  have hmaxA : -fMAX ≤ (a.foldl update_summary initial_summary).max_val := by
    rw [hA.2.2.2.2.2, show initial_summary.max_val = -fMAX from rfl]
    exact foldl_max_ge_init _ _
  unfold raw_summary
  rw [List.foldl_append]
  simp only [merge_total, summary_to_total, TotalSummary.mk.injEq]
  refine ⟨?_, ?_, ?_, ?_, ?_⟩
  · rw [hBA.2.1, hB.2.1, show initial_summary.bases_covered = 0 from rfl]
    omega
  · rw [hBA.2.2.2.2.1, hB.2.2.2.2.1, show initial_summary.min_val = fMAX from rfl,
      ← foldl_min_min (b.map Value.value) _ fMAX, min_eq_left hminA]
  · rw [hBA.2.2.2.2.2, hB.2.2.2.2.2, show initial_summary.max_val = -fMAX from rfl,
      ← foldl_max_max (b.map Value.value) _ (-fMAX), max_eq_left hmaxA]
  · rw [hBA.2.2.1, hB.2.2.1, show initial_summary.sum = 0 from rfl]
    ring
  · rw [hBA.2.2.2.1, hB.2.2.2.1, show initial_summary.sum_squares = 0 from rfl]
    ring

/-- Helper: the merge fold over raw per-chromosome summaries is the raw
summary of the concatenated stream. -/
theorem foldl_merge_raw (cs : List (List Value)) : ∀ x : List Value,
    ((cs.map fun c => summary_to_total (raw_summary c)).foldl merge_total
      (summary_to_total (raw_summary x))) =
      summary_to_total (raw_summary (x ++ cs.flatten)) := by
  induction cs with
  | nil => intro x; simp
  | cons c cs ih =>
    intro x
    simp only [List.map_cons, List.foldl_cons]
    rw [merge_raw, ih, List.flatten_cons, List.append_assoc]

/-- Helper: folding the per-chromosome summaries equals processing the whole
concatenated stream in one pass. -/
theorem total_summary_of_eq_join (chroms : List (List Value)) (h0 : chroms ≠ [])
    (h1 : ∀ c ∈ chroms, c ≠ []) :
    total_summary_of chroms = summary_to_total (process_chrom_summary chroms.flatten) := by
  rcases chroms with _ | ⟨c, cs⟩
  · exact absurd rfl h0
  · have hc : c ≠ [] := h1 c (List.mem_cons_self c cs)
    have hflat : (c :: cs).flatten ≠ [] := by
      rw [List.flatten_cons]
      intro hcc
      exact hc (List.append_eq_nil.mp hcc).1
    unfold total_summary_of
    rw [List.map_cons, write_vals_total_summary_cons]
    have hmap : (cs.map fun d => summary_to_total (process_chrom_summary d)) =
        cs.map fun d => summary_to_total (raw_summary d) := by
      apply List.map_congr_left
      intro d hd
      rw [process_chrom_summary_eq_raw d (h1 d (List.mem_cons_of_mem c hd))]
    rw [process_chrom_summary_eq_raw c hc, hmap, foldl_merge_raw,
      process_chrom_summary_eq_raw _ hflat, List.flatten_cons]

/-- C1 (amended): for valid input, the total summary satisfies
`bases_covered = Σ (end-start)`, `sum = Σ (end-start)·value`,
`sum_squares = Σ (end-start)·value²`, `min`/`max` are the least/greatest
record values, and folding the per-chromosome summaries agrees with a single
pass over the whole stream.  (The claim's concrete scenario values are
amended: the three-chromosome scenario yields `bases_covered = 594`,
`sum = 297`, `sum_squares = 148.5`, `min = max = 0.5`.) -/
theorem C1_total_summary (chroms : List (List Value)) (h0 : chroms ≠ [])
    (h1 : ∀ c ∈ chroms, c ≠ [])
    (h2 : ∀ v ∈ chroms.flatten, -fMAX ≤ v.value ∧ v.value ≤ fMAX) :
    (total_summary_of chroms).bases_covered =
      (chroms.flatten.map fun v => v.stop - v.start).sum ∧
    (total_summary_of chroms).sum =
      (chroms.flatten.map fun v => ((v.stop - v.start : Nat) : ℚ) * v.value).sum ∧
    (total_summary_of chroms).sum_squares =
      (chroms.flatten.map fun v => ((v.stop - v.start : Nat) : ℚ) * v.value * v.value).sum ∧
    (total_summary_of chroms).min_val ∈ chroms.flatten.map Value.value ∧
    (∀ x ∈ chroms.flatten.map Value.value, (total_summary_of chroms).min_val ≤ x) ∧
    (total_summary_of chroms).max_val ∈ chroms.flatten.map Value.value ∧
    (∀ x ∈ chroms.flatten.map Value.value, x ≤ (total_summary_of chroms).max_val) ∧
    total_summary_of chroms = summary_to_total (process_chrom_summary chroms.flatten) := by
  have hflat : chroms.flatten ≠ [] := by
    rcases chroms with _ | ⟨c, cs⟩
    · exact absurd rfl h0
    · have hc : c ≠ [] := h1 c (List.mem_cons_self c cs)
      rw [List.flatten_cons]
      intro hcc
      exact hc (List.append_eq_nil.mp hcc).1
  have heq := total_summary_of_eq_join chroms h0 h1
  have hraw := process_chrom_summary_eq_raw chroms.flatten hflat
  have hf := foldl_update_fields chroms.flatten initial_summary
  have hmapne : chroms.flatten.map Value.value ≠ [] := by
    simpa using hflat
  have hub : ∀ x ∈ chroms.flatten.map Value.value, x ≤ fMAX := by
    intro x hx
    obtain ⟨v, hv, rfl⟩ := List.mem_map.mp hx
    exact (h2 v hv).2
  have hlb : ∀ x ∈ chroms.flatten.map Value.value, -fMAX ≤ x := by
    intro x hx
    obtain ⟨v, hv, rfl⟩ := List.mem_map.mp hx
    exact (h2 v hv).1
  have hbase : (summary_to_total (raw_summary chroms.flatten)).bases_covered =
      (chroms.flatten.map fun v => v.stop - v.start).sum := by
    show (raw_summary chroms.flatten).bases_covered = _
    unfold raw_summary
    rw [hf.2.1, show initial_summary.bases_covered = 0 from rfl]
    omega
  have hsum : (summary_to_total (raw_summary chroms.flatten)).sum =
      (chroms.flatten.map fun v => ((v.stop - v.start : Nat) : ℚ) * v.value).sum := by
    show (raw_summary chroms.flatten).sum = _
    unfold raw_summary
    rw [hf.2.2.1, show initial_summary.sum = 0 from rfl, zero_add]
  have hsq : (summary_to_total (raw_summary chroms.flatten)).sum_squares =
      (chroms.flatten.map fun v => ((v.stop - v.start : Nat) : ℚ) * v.value * v.value).sum := by
    show (raw_summary chroms.flatten).sum_squares = _
    unfold raw_summary
    rw [hf.2.2.2.1, show initial_summary.sum_squares = 0 from rfl, zero_add]
  have hminval : (summary_to_total (raw_summary chroms.flatten)).min_val =
      (chroms.flatten.map Value.value).foldl min fMAX := by
    show (raw_summary chroms.flatten).min_val = _
    unfold raw_summary
    rw [hf.2.2.2.2.1, show initial_summary.min_val = fMAX from rfl]
  have hmaxval : (summary_to_total (raw_summary chroms.flatten)).max_val =
      (chroms.flatten.map Value.value).foldl max (-fMAX) := by
    show (raw_summary chroms.flatten).max_val = _
    unfold raw_summary
    rw [hf.2.2.2.2.2, show initial_summary.max_val = -fMAX from rfl]
  rw [heq, hraw]
  refine ⟨hbase, hsum, hsq, ?_, ?_, ?_, ?_, rfl⟩
  · rw [hminval]
    exact foldl_min_mem _ fMAX hmapne hub
  · intro x hx
    rw [hminval]
    exact foldl_min_le_mem _ fMAX x hx
  · rw [hmaxval]
    exact foldl_max_mem _ (-fMAX) hmapne hlb
  · intro x hx
    rw [hmaxval]
    exact foldl_max_ge_mem _ (-fMAX) x hx

/-- C1 witness: the amended theorem instantiated on the three-chromosome
scenario. -/
theorem C1_total_summary_witness :
    (total_summary_of scenario_chroms).min_val ∈ scenario_chroms.flatten.map Value.value ∧
    total_summary_of scenario_chroms =
      summary_to_total (process_chrom_summary scenario_chroms.flatten) := by
  have hb : ∀ v ∈ scenario_chroms.flatten, -fMAX ≤ v.value ∧ v.value ≤ fMAX := by
    intro v hv
    simp [scenario_chroms, chr17_vals, chr18_vals, chr19_vals] at hv
    rcases hv with rfl | rfl | rfl | rfl | rfl | rfl <;>
      constructor <;> norm_num [fMAX]
  have h := C1_total_summary scenario_chroms (by decide) (by decide) hb
  exact ⟨h.2.2.2.1, h.2.2.2.2.2.2.2⟩

end Bigtools

namespace Bigtools

/-- Zoom record, from `src/bbi` (`ZoomRecord { chrom, start, end, summary }`,
used by `process_chrom` in `src/bbi/bigwigwrite.rs`). -/
structure ZoomRecord where
  chrom : Nat
  start : Nat
  stop : Nat
  summary : Summary
deriving DecidableEq, Repr

/-- Fresh live zoom record opened at `add_start` with min/max initialised
from the current value, `src/bbi/bigwigwrite.rs` lines 267-279. -/
def zoom_live_init (chrom_id add_start : Nat) (val : ℚ) : ZoomRecord :=
  ⟨chrom_id, add_start, add_start, ⟨0, 0, val, val, 0, 0⟩⟩

/-- Accumulation of the bases `[add_start, add_end)` into a live zoom record,
`src/bbi/bigwigwrite.rs` lines 285-294. -/
def zoom_add (z : ZoomRecord) (add_start add_end : Nat) (val : ℚ) : ZoomRecord :=
  let added_bases : Nat := add_end - add_start
  ⟨z.chrom, z.start, add_end,
   ⟨z.summary.total_items + 1,
    z.summary.bases_covered + added_bases,
    min z.summary.min_val val,
    max z.summary.max_val val,
    z.summary.sum + (added_bases : ℚ) * val,
    z.summary.sum_squares + (added_bases : ℚ) * val * val⟩⟩

/-- The inner zoom walking loop of `process_chrom`
(`src/bbi/bigwigwrite.rs` lines 240-302) in the state where no live record is
open: repeatedly open a window `z` at `add_start` (the source's
`live_info.get_or_insert`), add the bases up to
`add_end = min next_end vend` where `next_end = add_start + size`, emit the
window when it fills (`add_end = next_end`), and keep it live when the value
ends first.  Returns the live record left open (if any) and the emitted
records in order.  The source iterates with `add_start = add_end`; the
recursion here follows that loop with `next_end` and `add_end` written out,
and the `size = 0` guard is a termination artifact (the zoom ladder sizes of
the source are all ≥ 10). -/
def zoom_add_loop (size chrom_id : Nat) (val : ℚ) (vend : Nat) (add_start : Nat) :
    Option ZoomRecord × List ZoomRecord :=
  if _h0 : size = 0 then (none, [])
  else if _h1 : add_start < vend then
    if _h2 : min (add_start + size) vend = add_start + size then
      ((zoom_add_loop size chrom_id val vend (min (add_start + size) vend)).1,
        zoom_add (zoom_live_init chrom_id add_start val) add_start
          (min (add_start + size) vend) val ::
          (zoom_add_loop size chrom_id val vend (min (add_start + size) vend)).2)
    else
      (some (zoom_add (zoom_live_init chrom_id add_start val) add_start
        (min (add_start + size) vend) val), [])
  else (none, [])
termination_by vend - add_start
decreasing_by omega

/-- One input record pushed through the zoom walking loop of `process_chrom`
(`src/bbi/bigwigwrite.rs` lines 240-302), starting from the live record left
by the previous input record.  With a live record `z` the first iteration of
the source loop runs with `zoom2 = z` and `add_start = v.start`: if the
window already ended before the value starts (`add_end < add_start`), nothing
is added, the stale record is emitted (`add_end = next_end` holds there) and
the loop resumes from `add_start = add_end`; otherwise bases are added and
the record is emitted exactly when the window fills. -/
def zoom_process_value (size chrom_id : Nat) (live : Option ZoomRecord) (v : Value) :
    Option ZoomRecord × List ZoomRecord :=
  match live with
  | none => zoom_add_loop size chrom_id v.value v.stop v.start
  | some z =>
    if v.start < v.stop then
      if min (z.start + size) v.stop < v.start then
        ((zoom_add_loop size chrom_id v.value v.stop (min (z.start + size) v.stop)).1,
          z :: (zoom_add_loop size chrom_id v.value v.stop (min (z.start + size) v.stop)).2)
      else
        if min (z.start + size) v.stop = z.start + size then
          ((zoom_add_loop size chrom_id v.value v.stop (min (z.start + size) v.stop)).1,
            zoom_add z v.start (min (z.start + size) v.stop) v.value ::
              (zoom_add_loop size chrom_id v.value v.stop (min (z.start + size) v.stop)).2)
        else (some (zoom_add z v.start (min (z.start + size) v.stop) v.value), [])
    else (some z, [])

/-- The zoom walking loop folded over all records of one chromosome. -/
def zoom_chrom_go (size chrom_id : Nat) (live : Option ZoomRecord) :
    List Value → Option ZoomRecord × List ZoomRecord
  | [] => (live, [])
  | v :: rest =>
    let r := zoom_process_value size chrom_id live v
    let r2 := zoom_chrom_go size chrom_id r.1 rest
    (r2.1, r.2 ++ r2.2)

/-- All zoom records emitted for one chromosome at one zoom level: the loop
over all records followed by the final flush of the remaining live record
(`src/bbi/bigwigwrite.rs` lines 258-264, the `peek().is_none()` branch). -/
def zoom_records (size chrom_id : Nat) (vals : List Value) : List ZoomRecord :=
  let r := zoom_chrom_go size chrom_id none vals
  r.2 ++ r.1.toList

/-- The failing input for the zoom bases invariant: two valid (sorted,
non-overlapping, in-bounds) records with a gap spanning a zoom-window
boundary while a window is still open. -/
def c4_input : List Value := [⟨0, 5, 1⟩, ⟨20, 30, 1⟩]

/-- C4: at zoom resolution 10 the input `[0,5) [20,30)` (value 1.0 each)
produces the zoom records `[0,5)`, `[10,20)`, `[20,30)` — the middle record
covers 10 phantom bases where no data exists — so the bases_covered sum over
zoom records is 25 while the primary summary covers 15 bases, violating the
invariant Σ bases_covered (zoom) = bases_covered (primary). -/
theorem C4_zoom_phantom_bases :
    valid_stream 1000 c4_input ∧
    ((zoom_records 10 0 c4_input).map fun z => (z.start, z.stop, z.summary.bases_covered)) =
      [(0, 5, 5), (10, 20, 10), (20, 30, 10)] ∧
    ((zoom_records 10 0 c4_input).map fun z => z.summary.bases_covered).sum = 25 ∧
    (process_chrom_summary c4_input).bases_covered = 15 ∧
    ((zoom_records 10 0 c4_input).map fun z => z.summary.bases_covered).sum ≠
      (process_chrom_summary c4_input).bases_covered := by
  have hzr : ((zoom_records 10 0 c4_input).map fun z =>
      (z.start, z.stop, z.summary.bases_covered)) =
      [(0, 5, 5), (10, 20, 10), (20, 30, 10)] := by
    simp [zoom_records, zoom_chrom_go, zoom_process_value, zoom_add_loop, zoom_add,
      zoom_live_init, c4_input]
  have hsum : ((zoom_records 10 0 c4_input).map fun z => z.summary.bases_covered).sum = 25 := by
    simp [zoom_records, zoom_chrom_go, zoom_process_value, zoom_add_loop, zoom_add,
      zoom_live_init, c4_input]
  have hprim : (process_chrom_summary c4_input).bases_covered = 15 := by decide
  refine ⟨?_, hzr, hsum, hprim, ?_⟩
  · simp [valid_stream, c4_input]
  · rw [hsum, hprim]
    decide

end Bigtools


namespace Bigtools

/-- Helper: the zoom loop stops once `add_start` reaches the value's end. -/
theorem zoom_add_loop_stop (size chrom_id : Nat) (val : ℚ) (vend s : Nat)
    (h : ¬ s < vend) : zoom_add_loop size chrom_id val vend s = (none, []) := by
  rw [zoom_add_loop]
  by_cases h0 : size = 0
  · rw [dif_pos h0]
  · rw [dif_neg h0, dif_neg h]

/-- Helper: the zoom loop when the window fills (push case). -/
theorem zoom_add_loop_push (size chrom_id : Nat) (val : ℚ) (vend s : Nat) (hs : ¬ size = 0)
    (h1 : s < vend) (h2 : min (s + size) vend = s + size) :
    zoom_add_loop size chrom_id val vend s =
      ((zoom_add_loop size chrom_id val vend (s + size)).1,
        zoom_add (zoom_live_init chrom_id s val) s (s + size) val ::
          (zoom_add_loop size chrom_id val vend (s + size)).2) := by
  conv_lhs => rw [zoom_add_loop]
  rw [dif_neg hs, dif_pos h1, dif_pos h2, h2]

/-- Helper: the zoom loop when the value ends inside the window (live case). -/
theorem zoom_add_loop_live (size chrom_id : Nat) (val : ℚ) (vend s : Nat) (hs : ¬ size = 0)
    (h1 : s < vend) (h2 : ¬ min (s + size) vend = s + size) :
    zoom_add_loop size chrom_id val vend s =
      (some (zoom_add (zoom_live_init chrom_id s val) s (min (s + size) vend) val), []) := by
  conv_lhs => rw [zoom_add_loop]
  rw [dif_neg hs, dif_pos h1, dif_neg h2]

/-- Helper: appending a chain whose elements start after the last record's
end preserves the chain. -/
theorem chain'_concat_append (recs : List ZoomRecord) (z : ZoomRecord) (l2 : List ZoomRecord)
    (h1 : List.Chain' (fun a b => a.stop ≤ b.start) (recs ++ [z]))
    (h2 : List.Chain' (fun a b => a.stop ≤ b.start) l2)
    (hjun : ∀ y ∈ l2, z.stop ≤ y.start) :
    List.Chain' (fun a b => a.stop ≤ b.start) ((recs ++ [z]) ++ l2) := by
  rw [List.chain'_append]
  refine ⟨h1, h2, ?_⟩
  intro x hx y hy
  rw [List.getLast?_concat] at hx
  simp at hx
  subst hx
  exact hjun y (List.mem_of_mem_head? hy)

/-- Helper: replacing the final record of a chain by one with the same start
preserves the chain. -/
theorem chain'_concat_congr (recs : List ZoomRecord) (z z2 : ZoomRecord)
    (h : List.Chain' (fun a b => a.stop ≤ b.start) (recs ++ [z]))
    (hstart : z2.start = z.start) :
    List.Chain' (fun a b => a.stop ≤ b.start) (recs ++ [z2]) := by
  rw [List.chain'_append] at h ⊢
  refine ⟨h.1, List.chain'_singleton _, ?_⟩
  intro x hx y hy
  simp at hy
  subst hy
  rw [hstart]
  exact h.2.2 x hx z (by simp)

/-- Helper: invariants of the live-free zoom loop — its output (emitted
records followed by the live record) is a chain under `a.stop ≤ b.start`,
each record lies inside `[s, vend]` with `start ≤ stop`, and a live record
never exceeds its window. -/
theorem zoom_add_loop_spec (size chrom_id : Nat) (val : ℚ) (hs : ¬ size = 0) :
    ∀ (fuel vend s : Nat), vend - s ≤ fuel →
      List.Chain' (fun a b => a.stop ≤ b.start)
        ((zoom_add_loop size chrom_id val vend s).2 ++
          (zoom_add_loop size chrom_id val vend s).1.toList) ∧
      (∀ a ∈ (zoom_add_loop size chrom_id val vend s).2 ++
          (zoom_add_loop size chrom_id val vend s).1.toList,
        s ≤ a.start ∧ a.start ≤ a.stop ∧ a.stop ≤ vend) ∧
      ∀ z, (zoom_add_loop size chrom_id val vend s).1 = some z →
        z.stop ≤ z.start + size := by
  intro fuel
  induction fuel with
  | zero =>
    intro vend s hf
    rw [zoom_add_loop_stop size chrom_id val vend s (by omega)]
    simp
  | succ n ih =>
    intro vend s hf
    by_cases h1 : s < vend
    · by_cases h2 : min (s + size) vend = s + size
      · rw [zoom_add_loop_push size chrom_id val vend s hs h1 h2]
        have hrec := ih vend (s + size) (by omega)
        have hxstart : (zoom_add (zoom_live_init chrom_id s val) s (s + size) val).start = s :=
          rfl
        have hxstop : (zoom_add (zoom_live_init chrom_id s val) s (s + size) val).stop =
            s + size := rfl
        have hsv : s + size ≤ vend := by omega
        refine ⟨?_, ?_, ?_⟩
        · show List.Chain' _ ((_ :: (zoom_add_loop size chrom_id val vend (s + size)).2) ++ _)
          rw [List.cons_append, List.chain'_cons']
          refine ⟨?_, hrec.1⟩
          intro y hy
          have h3 := (hrec.2.1 y (List.mem_of_mem_head? hy)).1
          rw [hxstop]
          omega
        · intro a ha
          rw [List.cons_append, List.mem_cons] at ha
          rcases ha with ha | ha
          · subst ha
            rw [hxstart, hxstop]
            omega
          · have := hrec.2.1 a ha
            omega
        · intro z hz
          exact hrec.2.2 z hz
      · rw [zoom_add_loop_live size chrom_id val vend s hs h1 h2]
        have hxstart : (zoom_add (zoom_live_init chrom_id s val) s
            (min (s + size) vend) val).start = s := rfl
        have hxstop : (zoom_add (zoom_live_init chrom_id s val) s
            (min (s + size) vend) val).stop = min (s + size) vend := rfl
        refine ⟨by simp, ?_, ?_⟩
        · intro a ha
          simp only [List.nil_append, Option.toList_some, List.mem_singleton] at ha
          subst ha
          rw [hxstart, hxstop]
          omega
        · intro z hz
          injection hz with hz
          subst hz
          rw [hxstart, hxstop]
          omega
    · rw [zoom_add_loop_stop size chrom_id val vend s h1]
      simp

/-- Helper: invariants preserved by pushing one input record through the zoom
walking loop: if previously emitted records followed by the live record form
a chain ending at or before `p` and the record `v` starts at or after `p`,
the new state is again such a chain ending at or before `v.stop`. -/
theorem zoom_process_value_spec (size chrom_id : Nat) (hs : ¬ size = 0)
    (live : Option ZoomRecord) (recs : List ZoomRecord) (p : Nat) (v : Value)
    (hchain : List.Chain' (fun a b => a.stop ≤ b.start) (recs ++ live.toList))
    (hbound : ∀ a ∈ recs ++ live.toList, a.start ≤ a.stop ∧ a.stop ≤ p)
    (hlive : ∀ z, live = some z → z.stop ≤ z.start + size)
    (hpv : p ≤ v.start) (hv : v.start ≤ v.stop) :
    List.Chain' (fun a b => a.stop ≤ b.start)
      ((recs ++ (zoom_process_value size chrom_id live v).2) ++
        (zoom_process_value size chrom_id live v).1.toList) ∧
    (∀ a ∈ (recs ++ (zoom_process_value size chrom_id live v).2) ++
        (zoom_process_value size chrom_id live v).1.toList,
      a.start ≤ a.stop ∧ a.stop ≤ v.stop) ∧
    ∀ z, (zoom_process_value size chrom_id live v).1 = some z →
      z.stop ≤ z.start + size := by
  rcases live with _ | z
  · simp only [Option.toList_none, List.append_nil] at hchain hbound
    simp only [zoom_process_value]
    have hA := zoom_add_loop_spec size chrom_id v.value hs (v.stop - v.start) v.stop v.start
      (le_refl _)
    refine ⟨?_, ?_, hA.2.2⟩
    · rw [List.append_assoc, List.chain'_append]
      refine ⟨hchain, hA.1, ?_⟩
      intro x hx y hy
      have hb1 := (hbound x (List.mem_of_mem_getLast? hx)).2
      have hb2 := (hA.2.1 y (List.mem_of_mem_head? hy)).1
      omega
    · intro a ha
      rw [List.append_assoc, List.mem_append] at ha
      rcases ha with ha | ha
      · have := hbound a ha
        omega
      · have := hA.2.1 a ha
        omega
  · simp only [Option.toList_some] at hchain hbound
    have hz := hbound z (by simp)
    have hlz : z.stop ≤ z.start + size := hlive z rfl
    by_cases hvv : v.start < v.stop
    · by_cases hstale : min (z.start + size) v.stop < v.start
      · -- stale window: the record is emitted untouched and the loop resumes
        -- from the window end `z.start + size`
        have hmin : min (z.start + size) v.stop = z.start + size := by omega
        have hgo : zoom_process_value size chrom_id (some z) v =
            ((zoom_add_loop size chrom_id v.value v.stop (z.start + size)).1,
              z :: (zoom_add_loop size chrom_id v.value v.stop (z.start + size)).2) := by
          simp only [zoom_process_value]
          rw [if_pos hvv, if_pos hstale, hmin]
        rw [hgo]
        dsimp only
        have hA := zoom_add_loop_spec size chrom_id v.value hs
          (v.stop - (z.start + size)) v.stop (z.start + size) (le_refl _)
        have heq : (recs ++ z :: (zoom_add_loop size chrom_id v.value v.stop
              (z.start + size)).2) ++
            (zoom_add_loop size chrom_id v.value v.stop (z.start + size)).1.toList =
            (recs ++ [z]) ++ ((zoom_add_loop size chrom_id v.value v.stop
              (z.start + size)).2 ++
              (zoom_add_loop size chrom_id v.value v.stop (z.start + size)).1.toList) := by
          simp
        refine ⟨?_, ?_, hA.2.2⟩
        · rw [heq]
          apply chain'_concat_append recs z _ hchain hA.1
          intro y hy
          have := (hA.2.1 y hy).1
          omega
        · intro a ha
          rw [heq, List.mem_append] at ha
          rcases ha with ha | ha
          · have := hbound a ha
            omega
          · have := hA.2.1 a ha
            omega
      · have hble : v.start ≤ min (z.start + size) v.stop := by omega
        by_cases hfull : min (z.start + size) v.stop = z.start + size
        · -- the window fills: the extended record is emitted and the loop
          -- resumes from the window end
          have hgo : zoom_process_value size chrom_id (some z) v =
              ((zoom_add_loop size chrom_id v.value v.stop (z.start + size)).1,
                zoom_add z v.start (z.start + size) v.value ::
                  (zoom_add_loop size chrom_id v.value v.stop (z.start + size)).2) := by
            simp only [zoom_process_value]
            rw [if_pos hvv, if_neg hstale, if_pos hfull, hfull]
          rw [hgo]
          dsimp only
          have hA := zoom_add_loop_spec size chrom_id v.value hs
            (v.stop - (z.start + size)) v.stop (z.start + size) (le_refl _)
          have hz2start : (zoom_add z v.start (z.start + size) v.value).start = z.start := rfl
          have hz2stop : (zoom_add z v.start (z.start + size) v.value).stop =
              z.start + size := rfl
          have hzsv : z.start + size ≤ v.stop := by omega
          have heq : (recs ++ zoom_add z v.start (z.start + size) v.value ::
                (zoom_add_loop size chrom_id v.value v.stop (z.start + size)).2) ++
              (zoom_add_loop size chrom_id v.value v.stop (z.start + size)).1.toList =
              (recs ++ [zoom_add z v.start (z.start + size) v.value]) ++
              ((zoom_add_loop size chrom_id v.value v.stop (z.start + size)).2 ++
                (zoom_add_loop size chrom_id v.value v.stop (z.start + size)).1.toList) := by
            simp
          have hchain2 : List.Chain' (fun a b => a.stop ≤ b.start)
              (recs ++ [zoom_add z v.start (z.start + size) v.value]) :=
            chain'_concat_congr recs z _ hchain hz2start
          refine ⟨?_, ?_, hA.2.2⟩
          · rw [heq]
            apply chain'_concat_append recs _ _ hchain2 hA.1
            intro y hy
            have := (hA.2.1 y hy).1
            rw [hz2stop]
            omega
          · intro a ha
            rw [heq, List.mem_append] at ha
            rcases ha with ha | ha
            · rw [List.mem_append] at ha
              rcases ha with ha | ha
              · have := hbound a (List.mem_append_left _ ha)
                omega
              · rw [List.mem_singleton] at ha
                subst ha
                rw [hz2start, hz2stop]
                omega
            · have := hA.2.1 a ha
              omega
        · -- the value ends inside the window: the extended record stays live
          have hgo : zoom_process_value size chrom_id (some z) v =
              (some (zoom_add z v.start (min (z.start + size) v.stop) v.value), []) := by
            simp only [zoom_process_value]
            rw [if_pos hvv, if_neg hstale, if_neg hfull]
          rw [hgo]
          dsimp only
          have hz2start : (zoom_add z v.start (min (z.start + size) v.stop) v.value).start =
              z.start := rfl
          have hz2stop : (zoom_add z v.start (min (z.start + size) v.stop) v.value).stop =
              min (z.start + size) v.stop := rfl
          have hchain2 : List.Chain' (fun a b => a.stop ≤ b.start)
              (recs ++ [zoom_add z v.start (min (z.start + size) v.stop) v.value]) :=
            chain'_concat_congr recs z _ hchain hz2start
          refine ⟨?_, ?_, ?_⟩
          · simpa using hchain2
          · intro a ha
            simp only [Option.toList_some, List.append_nil] at ha
            rw [List.mem_append] at ha
            rcases ha with ha | ha
            · have := hbound a (List.mem_append_left _ ha)
              omega
            · rw [List.mem_singleton] at ha
              subst ha
              rw [hz2start, hz2stop]
              omega
          · intro z2 hz2
            injection hz2 with hz2
            subst hz2
            rw [hz2start, hz2stop]
            omega
    · -- empty record: nothing happens
      have hgo : zoom_process_value size chrom_id (some z) v = (some z, []) := by
        simp only [zoom_process_value]
        rw [if_neg hvv]
      rw [hgo]
      dsimp only
      refine ⟨?_, ?_, ?_⟩
      · simpa using hchain
      · intro a ha
        simp only [Option.toList_some, List.append_nil] at ha
        have := hbound a (by simpa using ha)
        omega
      · intro z2 hz2
        injection hz2 with hz2
        subst hz2
        exact hlz

/-- Helper: the chain invariant carried over a whole chromosome by the
per-record zoom processing. -/
theorem zoom_chrom_go_spec (size chrom_id : Nat) (hs : ¬ size = 0) :
    ∀ (vals : List Value) (live : Option ZoomRecord) (recs : List ZoomRecord) (p : Nat),
      List.Chain' (fun a b => a.stop ≤ b.start) (recs ++ live.toList) →
      (∀ a ∈ recs ++ live.toList, a.start ≤ a.stop ∧ a.stop ≤ p) →
      (∀ z, live = some z → z.stop ≤ z.start + size) →
      List.Chain' (fun a b => a.stop ≤ b.start) vals →
      (∀ v ∈ vals, v.start ≤ v.stop) →
      (∀ h ∈ vals.head?, p ≤ h.start) →
      List.Chain' (fun a b => a.stop ≤ b.start)
        ((recs ++ (zoom_chrom_go size chrom_id live vals).2) ++
          (zoom_chrom_go size chrom_id live vals).1.toList) ∧
      ∀ a ∈ (recs ++ (zoom_chrom_go size chrom_id live vals).2) ++
          (zoom_chrom_go size chrom_id live vals).1.toList, a.start ≤ a.stop := by
  intro vals
  induction vals with
  | nil =>
    intro live recs p hchain hbound hlive hcv hsv hhd
    simp only [zoom_chrom_go, List.append_nil]
    exact ⟨hchain, fun a ha => (hbound a ha).1⟩
  | cons v rest ih =>
    intro live recs p hchain hbound hlive hcv hsv hhd
    have hpv : p ≤ v.start := hhd v rfl
    have hvv : v.start ≤ v.stop := hsv v (List.mem_cons_self v rest)
    have hstep := zoom_process_value_spec size chrom_id hs live recs p v hchain hbound hlive
      hpv hvv
    have hcr : List.Chain' (fun a b : Value => a.stop ≤ b.start) rest :=
      (List.chain'_cons'.mp hcv).2
    have hhd2 : ∀ h ∈ rest.head?, v.stop ≤ h.start := (List.chain'_cons'.mp hcv).1
    have hIH := ih (zoom_process_value size chrom_id live v).1
      (recs ++ (zoom_process_value size chrom_id live v).2) v.stop hstep.1 hstep.2.1
      hstep.2.2 hcr (fun w hw => hsv w (List.mem_cons_of_mem v hw)) hhd2
    simp only [zoom_chrom_go]
    constructor
    · have h1 := hIH.1
      simp only [List.append_assoc] at h1 ⊢
      exact h1
    · intro a ha
      apply hIH.2 a
      simp only [List.append_assoc] at ha ⊢
      exact ha

/-- Helper: strengthen a chain pointwise using a property of its elements. -/
theorem chain'_imp_of_mem {α : Type} {R S : α → α → Prop} {P : α → Prop}
    (h : ∀ a b, P a → R a b → S a b) :
    ∀ l : List α, (∀ x ∈ l, P x) → List.Chain' R l → List.Chain' S l := by
  intro l
  induction l with
  | nil => intro _ _; exact List.chain'_nil
  | cons x xs ih =>
    intro hP hc
    rcases xs with _ | ⟨y, ys⟩
    · exact List.chain'_singleton x
    · rw [List.chain'_cons] at hc ⊢
      exact ⟨h x y (hP x (List.mem_cons_self x _)) hc.1,
        ih (fun w hw => hP w (List.mem_cons_of_mem x hw)) hc.2⟩

/-- C8 (amended): on a valid chromosome stream the emitted zoom records at
resolution `size` form a chain with `first.stop ≤ second.start`; hence
whenever the first of two consecutive records is full
(`stop - start = size`), the second starts at or after `first.start + size`
— equality holds only when the data continues without a gap, so `=` in the
claim is amended to `≥`. -/
theorem C8_zoom_chain (size chrom_id : Nat) (vals : List Value) (hsize : 0 < size)
    (hv : ∀ v ∈ vals, v.start ≤ v.stop)
    (hchain : List.Chain' (fun a b => a.stop ≤ b.start) vals) :
    List.Chain' (fun a b => a.stop ≤ b.start) (zoom_records size chrom_id vals) ∧
    List.Chain' (fun a b => a.stop - a.start = size → a.start + size ≤ b.start)
      (zoom_records size chrom_id vals) := by
  have hs : ¬ size = 0 := by omega
  have h := zoom_chrom_go_spec size chrom_id hs vals none [] 0 (by simp) (by simp)
    (by simp) hchain hv (fun h _ => Nat.zero_le _)
  have hch : List.Chain' (fun a b => a.stop ≤ b.start) (zoom_records size chrom_id vals) := by
    have h1 := h.1
    simpa [zoom_records] using h1
  have hmem : ∀ a ∈ zoom_records size chrom_id vals, a.start ≤ a.stop := by
    intro a ha
    apply h.2
    simpa [zoom_records] using ha
  refine ⟨hch, ?_⟩
  apply chain'_imp_of_mem ?_ _ hmem hch
  intro a b hP hR hfull
  omega

/-- The input refuting the exact-adjacency claim for zoom records: a full
zoom window followed by a gap. -/
def c8_input : List Value := [⟨0, 10, 1⟩, ⟨25, 30, 1⟩]

/-- C8 counterexample: at resolution 10 the valid input `[0,10) [25,30)`
yields consecutive zoom records `[0,10)` (full, `stop - start = 10`) and
`[25,30)`, and the second record starts at 25, not at
`first.start + r = 10`. -/
theorem C8_gap_counterexample :
    valid_stream 1000 c8_input ∧
    ((zoom_records 10 0 c8_input).map fun z => (z.start, z.stop)) = [(0, 10), (25, 30)] ∧
    (10 : Nat) - 0 = 10 ∧ ¬ (25 : Nat) = 0 + 10 := by
  refine ⟨?_, ?_, by decide, by decide⟩
  · simp [valid_stream, c8_input]
  · simp [zoom_records, zoom_chrom_go, zoom_process_value, zoom_add_loop, zoom_add,
      zoom_live_init, c8_input]

/-- C8 witness: the amended chain theorem at the counterexample input. -/
theorem C8_zoom_chain_witness :
    List.Chain' (fun a b => a.stop - a.start = 10 → a.start + 10 ≤ b.start)
      (zoom_records 10 0 c8_input) :=
  (C8_zoom_chain 10 0 c8_input (by decide)
    (by
      intro v hv
      simp [c8_input] at hv
      rcases hv with rfl | rfl <;> simp)
    (by simp [c8_input, List.chain'_cons])).2

end Bigtools

namespace Bigtools

/-- Zoom header entry, from `src/bigwig.rs` lines 56-61 (`struct ZoomHeader`)
with the reserved u32 written as 0 by `write_groups` (lines 762-767). -/
structure ZoomHeader where
  reduction_level : Nat
  reserved : Nat
  data_offset : Nat
  index_offset : Nat
deriving DecidableEq, Repr

/-- Input of `write_zooms` for one zoom level: its reduction level, the byte
size of its buffered data (`zoom_file.seek(SeekFrom::End(0))`), and the byte
size of the R-tree `write_rtreeindex` serializes for it. -/
structure ZoomInfo where
  reduction_level : Nat
  zoom_size : Nat
  rtree_size : Nat
deriving DecidableEq, Repr

/-- `BigWigWrite::MAX_ZOOM_LEVELS`, `src/bigwig.rs` line 649. -/
def MAX_ZOOM_LEVELS : Nat := 10

/-- `BigWigWrite::write_zooms`, `src/bigwig.rs` lines 1276-1314: each level
whose data size exceeds `data_size / 2` is skipped; otherwise its data is
copied at the current position (so `index_offset = data_offset + zoom_size`,
the equality the source asserts at line 1297), its R-tree follows, a header
entry `(reduction_level, 0, data_offset, index_offset)` is pushed, and the
loop breaks once `zoom_count` reaches `MAX_ZOOM_LEVELS`. -/
def write_zooms_go (data_size : Nat) (pos : Nat) (zoom_count : Nat) :
    List ZoomInfo → List ZoomHeader
  | [] => []
  | zoom :: rest =>
    if data_size / 2 < zoom.zoom_size then
      write_zooms_go data_size pos zoom_count rest
    else
      if MAX_ZOOM_LEVELS ≤ zoom_count + 1 then
        [⟨zoom.reduction_level, 0, pos, pos + zoom.zoom_size⟩]
      else
        ⟨zoom.reduction_level, 0, pos, pos + zoom.zoom_size⟩ ::
          write_zooms_go data_size (pos + zoom.zoom_size + zoom.rtree_size)
            (zoom_count + 1) rest

/-- The zoom header entries `write_zooms` produces, starting at file
position `pos` with `zoom_count = 0`. -/
def write_zooms (zooms : List ZoomInfo) (data_size pos : Nat) : List ZoomHeader :=
  write_zooms_go data_size pos 0 zooms

/-- The hard-coded ladder of zoom resolutions, `src/bigwig.rs` lines 932 and
1202 (eleven sizes, each 4 times the previous). -/
def zoom_sizes : List Nat :=
  [10, 40, 160, 640, 2560, 10240, 40960, 163840, 655360, 2621440, 10485760]

/-- Helper: characterization of `write_zooms_go` for any starting count. -/
theorem write_zooms_go_spec (data_size : Nat) :
    ∀ (zooms : List ZoomInfo) (pos zoom_count : Nat), zoom_count < MAX_ZOOM_LEVELS →
      List.Forall₂ (fun (e : ZoomHeader) (z : ZoomInfo) =>
          e.reduction_level = z.reduction_level ∧ e.reserved = 0 ∧
          e.index_offset = e.data_offset + z.zoom_size)
        (write_zooms_go data_size pos zoom_count zooms)
        ((zooms.filter fun z => z.zoom_size ≤ data_size / 2).take
          (MAX_ZOOM_LEVELS - zoom_count)) ∧
      (write_zooms_go data_size pos zoom_count zooms).length =
        min (zooms.filter fun z => z.zoom_size ≤ data_size / 2).length
          (MAX_ZOOM_LEVELS - zoom_count) := by
  intro zooms
  induction zooms with
  | nil =>
    intro pos c hc
    simp [write_zooms_go]
  | cons zoom rest ih =>
    intro pos c hc
    by_cases hskip : data_size / 2 < zoom.zoom_size
    · simp only [write_zooms_go, if_pos hskip]
      rw [List.filter_cons_of_neg (by simp; omega)]
      exact ih pos c hc
    · have hkeep : zoom.zoom_size ≤ data_size / 2 := by omega
      rw [show ((zoom :: rest).filter fun z => z.zoom_size ≤ data_size / 2) =
        zoom :: (rest.filter fun z => z.zoom_size ≤ data_size / 2) from
        List.filter_cons_of_pos (by simpa using hkeep)]
      by_cases hbreak : MAX_ZOOM_LEVELS ≤ c + 1
      · simp only [write_zooms_go, if_neg hskip, if_pos hbreak]
        have hms : MAX_ZOOM_LEVELS - c = 1 := by omega
        rw [hms]
        constructor
        · rw [show (1 : Nat) = 0 + 1 from rfl, List.take_succ_cons]
          simp only [List.take_zero]
          exact List.Forall₂.cons ⟨rfl, rfl, rfl⟩ List.Forall₂.nil
        · simp
      · simp only [write_zooms_go, if_neg hskip, if_neg hbreak]
        have hrec := ih (pos + zoom.zoom_size + zoom.rtree_size) (c + 1) (by omega)
        have hms : MAX_ZOOM_LEVELS - c = (MAX_ZOOM_LEVELS - (c + 1)) + 1 := by omega
        rw [hms, List.take_succ_cons]
        constructor
        · exact List.Forall₂.cons ⟨rfl, rfl, rfl⟩ hrec.1
        · simp only [List.length_cons, hrec.2]
          omega

/-- C5 (amended): during zoom writing, a level whose serialized data size
exceeds half the primary data size is skipped (no entry), every other level
gets a header entry `(reduction_level, 0, data_offset, index_offset)` with
`index_offset = data_offset + size` — but only up to `MAX_ZOOM_LEVELS = 10`
kept levels: iteration stops after the tenth kept entry, so an eleventh
non-oversized level is dropped too.  The header count equals the number of
kept entries, i.e. `min(number of non-oversized levels, 10)`. -/
theorem C5_write_zooms (zooms : List ZoomInfo) (data_size pos : Nat) :
    List.Forall₂ (fun (e : ZoomHeader) (z : ZoomInfo) =>
        e.reduction_level = z.reduction_level ∧ e.reserved = 0 ∧
        e.index_offset = e.data_offset + z.zoom_size)
      (write_zooms zooms data_size pos)
      ((zooms.filter fun z => z.zoom_size ≤ data_size / 2).take MAX_ZOOM_LEVELS) ∧
    (write_zooms zooms data_size pos).length =
      min (zooms.filter fun z => z.zoom_size ≤ data_size / 2).length MAX_ZOOM_LEVELS := by
  have h := write_zooms_go_spec data_size zooms pos 0 (by decide)
  simpa [write_zooms] using h

/-- C5 counterexample: with the full eleven-level ladder all of size 0 over
an empty primary data stream (`data_size = 0`, so no level exceeds half the
primary size), only ten levels receive header entries — the eleventh
(reduction level 10485760) is dropped by the `MAX_ZOOM_LEVELS` cap although
its size does not exceed half the primary data size. -/
theorem C5_cap_counterexample :
    ((write_zooms (zoom_sizes.map fun r => ⟨r, 0, 0⟩) 0 100).map
      fun e => e.reduction_level) =
      [10, 40, 160, 640, 2560, 10240, 40960, 163840, 655360, 2621440] ∧
    (zoom_sizes.map fun r => (⟨r, 0, 0⟩ : ZoomInfo)).length = 11 ∧
    ¬ (0 : Nat) / 2 < 0 := by
  refine ⟨by decide, by decide, by decide⟩

end Bigtools

namespace Bigtools

/-- Section index entry, from `src/bigwig.rs` lines 149-156
(`struct Section { offset, size, chrom, start, end }`). -/
structure Section where
  offset : Nat
  size : Nat
  chrom : Nat
  start : Nat
  stop : Nat
deriving DecidableEq, Repr

/-- R-tree node, from `src/bigwig.rs` lines 117-139 (`RTreeNode` with
`RTreeNodeType::Leaf`/`NonLeaf`; the `RTreeNodeList` wrapper is collapsed
into a plain list). -/
inductive RTree where
  | leaf (start_chrom_idx start_base end_chrom_idx end_base : Nat) (offset size : Nat)
  | node (start_chrom_idx start_base end_chrom_idx end_base : Nat) (children : List RTree)
deriving Repr

/-- Leaf node for one section, `get_rtreeindex` lines 1318-1327. -/
def section_leaf (s : Section) : RTree :=
  .leaf s.chrom s.start s.chrom s.stop s.offset s.size

/-- The four aggregate-interval coordinates of a node. -/
def rtree_coords : RTree → Nat × Nat × Nat × Nat
  | .leaf a b c d _ _ => (a, b, c, d)
  | .node a b c d _ => (a, b, c, d)

/-- Aggregate-interval update of `get_rtreeindex` lines 1365-1377: the first
node of a group fixes all four coordinates; each later node extends
`end_base` (taking the max only when the end chromosome matches) and
`end_chrom_idx`. -/
def agg_step (acc : Option (Nat × Nat × Nat × Nat)) (t : RTree) :
    Option (Nat × Nat × Nat × Nat) :=
  match acc, rtree_coords t with
  | none, c => some c
  | some (sc, sb, ec, eb), (_, _, nec, neb) =>
    some (sc, sb, max ec nec, if ec = nec then max eb neb else neb)

/-- Wrap a full group of nodes into a non-leaf node carrying the group's
aggregate interval (`get_rtreeindex` lines 1384-1394). -/
def mk_nonleaf (g : List RTree) : RTree :=
  match g.foldl agg_step none with
  | some (sc, sb, ec, eb) => .node sc sb ec eb g
  | none => .node 0 0 0 0 g

/-- The chunking of one grouping pass (`get_rtreeindex` inner loop): groups
close when they reach `block_size` nodes, a trailing partial group remains. -/
def chunk_go (block_size : Nat) (current_group : List RTree) :
    List RTree → List (List RTree)
  | [] => if current_group.isEmpty then [] else [current_group]
  | t :: ts =>
    if block_size ≤ (current_group ++ [t]).length then
      (current_group ++ [t]) :: chunk_go block_size [] ts
    else chunk_go block_size (current_group ++ [t]) ts

/-- One pass of the grouping loop of `get_rtreeindex` (lines 1329-1407):
with fewer than `block_size` nodes no group ever closes, so at the end
`next_nodes` is empty and the nodes are promoted ungrouped without a
level-up; otherwise every chunk (the trailing partial one included) is
wrapped into a non-leaf node and the level count rises. -/
def rtree_one_pass (block_size : Nat) (nodes : List RTree) : List RTree × Bool :=
  if nodes.length < block_size then (nodes, false)
  else ((chunk_go block_size [] nodes).map mk_nonleaf, true)

/-- The grouping loop of `get_rtreeindex`: pass after pass until fewer than
`block_size` nodes remain.  `fuel` is a termination artifact (the source
loop diverges for `block_size ≤ 1`; every use here supplies ample fuel). -/
def rtree_loop (block_size : Nat) : Nat → List RTree → Nat → List RTree × Nat
  | 0, nodes, levels => (nodes, levels)
  | fuel + 1, nodes, levels =>
    let r := rtree_one_pass block_size nodes
    if r.1.length < block_size then (r.1, if r.2 then levels + 1 else levels)
    else rtree_loop block_size fuel r.1 (if r.2 then levels + 1 else levels)

/-- `BigWigWrite::get_rtreeindex` (`src/bigwig.rs` lines 1316-1413): the
root node list and the number of non-leaf levels. -/
def get_rtreeindex (sections : List Section) (block_size : Nat) : List RTree × Nat :=
  rtree_loop block_size (sections.length + 1) (sections.map section_leaf) 0

/-- Functional update of one slot of a `Vec<u64>`. -/
def bumpAt : List Nat → Nat → Nat → List Nat
  | [], _, _ => []
  | x :: xs, 0, k => (x + k) :: xs
  | x :: xs, n + 1, k => x :: bumpAt xs n k

/-- Read of one slot of a `Vec<u64>` (0 out of bounds). -/
def getAt (l : List Nat) (i : Nat) : Nat := l.getD i 0

/-- `calculate_offsets` of `write_rtreeindex` (`src/bigwig.rs` lines
1422-1453): `index_offsets[level-1]` accumulates the 4-byte node header once
per node list plus 24 bytes per non-leaf entry, recursing into the children
one level down.  The `start` flag separates the per-call header bump from
the per-node loop of the source; `fuel` is a termination artifact. -/
def calculate_offsets (fuel : Nat) (start : Bool) (level : Nat) (trees : List RTree)
    (index_offsets : List Nat) : List Nat :=
  match fuel with
  | 0 => index_offsets
  | fuel + 1 =>
    match level with
    | 0 => index_offsets
    | l + 1 =>
      if start then
        calculate_offsets fuel false (l + 1) trees (bumpAt index_offsets l 4)
      else
        match trees with
        | [] => index_offsets
        | t :: ts =>
          calculate_offsets fuel false (l + 1) ts
            (match t with
             | .leaf _ _ _ _ _ _ => index_offsets
             | .node _ _ _ _ children =>
               calculate_offsets fuel true l children (bumpAt index_offsets l 24))

/-- Serialized child entry of an R-tree block: 32 bytes for a leaf
(interval, offset, size), 24 for a non-leaf (interval, child pointer). -/
inductive REntry where
  | leafE (start_chrom_idx start_base end_chrom_idx end_base offset size : Nat)
  | nonLeafE (start_chrom_idx start_base end_chrom_idx end_base child_offset : Nat)
deriving DecidableEq, Repr

/-- Byte width of one serialized child entry (`LEAFNODE_SIZE` = 32,
`NON_LEAFNODE_SIZE` = 24, `src/bigwig.rs` lines 1417-1418). -/
def entry_size : REntry → Nat
  | .leafE _ _ _ _ _ _ => 4 + 4 + 4 + 4 + 8 + 8
  | .nonLeafE _ _ _ _ _ => 4 + 4 + 4 + 4 + 8

/-- One serialized R-tree block: the 4-byte node header followed by the
entries of one node list.  `path` labels which node list the block
serializes (root list = `[]`, children of the node at index `i` of the list
at `p` = `p ++ [i]`) — an observation label for stating where each block
lies, not a field of the source. -/
structure RBlock where
  path : List Nat
  isleaf : Bool
  entries : List REntry
deriving Repr

/-- Byte size of a serialized block (`NODEHEADER_SIZE` = 4 plus its
entries). -/
def block_bytes (b : RBlock) : Nat := 4 + (b.entries.map entry_size).sum

/-- The child entries `write_tree` emits for one node list at the
destination level (`src/bigwig.rs` lines 1489-1514): entry `idx` of a
non-leaf node carries
`child_offset = childnode_offset + idx * full_block_size`, where the full
block size is `4 + block_size * 24` when the children are non-leaves
(`curr_level - 1 > 0`) and `4 + block_size * 32` when they are leaves. -/
def entries_of (block_size curr_level childnode_offset : Nat) :
    Nat → List RTree → List REntry
  | _, [] => []
  | idx, t :: ts =>
    (match t with
     | .leaf a b c d off sz => REntry.leafE a b c d off sz
     | .node a b c d _ =>
       REntry.nonLeafE a b c d (childnode_offset +
         idx * (if 0 < curr_level - 1 then 4 + block_size * 24
                else 4 + block_size * 32))) ::
      entries_of block_size curr_level childnode_offset (idx + 1) ts

/-- `write_tree` of `write_rtreeindex` (`src/bigwig.rs` lines 1456-1516) as
an emission trace: at the destination level the node list becomes one block;
above it the function recurses into the children of each node in order,
advancing `childnode_offset` by the bytes the earlier siblings wrote at the
destination level (the source's `next_offset_offset`).  Returns the bytes
written at the destination level and the blocks in emission order.  `fuel`
is a termination artifact and `idx` carries the enumeration index of the
sequential recursion. -/
def write_tree (block_size : Nat) : Nat → Nat → Nat → List RTree → List Nat → Nat →
    Nat → Nat × List RBlock
  | 0, _, _, _, _, _, _ => (0, [])
  | fuel + 1, curr_level, dest_level, trees, path, idx, childnode_offset =>
    if curr_level = dest_level then
      let entries := entries_of block_size curr_level childnode_offset 0 trees
      let isleaf := match trees.head? with
        | some (.leaf _ _ _ _ _ _) => true
        | _ => false
      (4 + (entries.map entry_size).sum, [⟨path, isleaf, entries⟩])
    else
      match curr_level with
      | 0 => (0, [])
      | c + 1 =>
        match trees with
        | [] => (0, [])
        | t :: ts =>
          let r1 :=
            match t with
            | .leaf _ _ _ _ _ _ => ((0 : Nat), ([] : List RBlock))
            | .node _ _ _ _ children =>
              write_tree block_size fuel c dest_level children (path ++ [idx]) 0
                childnode_offset
          let r2 := write_tree block_size fuel (c + 1) dest_level ts path (idx + 1)
            (childnode_offset + r1.1)
          (r1.1 + r2.1, r1.2 ++ r2.2)

/-- Fuel for the fuel-based R-tree functions; ample for every concrete use
in this file. -/
def rt_fuel : Nat := 1000

/-- The level-by-level pass loop of `write_rtreeindex` (`src/bigwig.rs`
lines 1541-1550): `next_offset` starts right after the 48-byte cir-tree
header; before each pass at level > 0 it advances by that level's total
size, and the level-0 pass reuses the last offset.  Each pass emits the
blocks of one level in file order. -/
def write_rtree_passes (block_size : Nat) (roots : List RTree) (levels : Nat)
    (index_offsets : List Nat) : Nat → Nat → List RBlock
  | 0, next_offset =>
    (write_tree block_size rt_fuel levels 0 roots [] 0 next_offset).2
  | l + 1, next_offset =>
    (write_tree block_size rt_fuel levels (l + 1) roots [] 0
      (next_offset + getAt index_offsets l)).2 ++
      write_rtree_passes block_size roots levels index_offsets l
        (next_offset + getAt index_offsets l)

/-- Assign absolute file positions to blocks emitted in file order. -/
def positioned : Nat → List RBlock → List (Nat × RBlock)
  | _, [] => []
  | pos, b :: bs => (pos, b) :: positioned (pos + block_bytes b) bs

/-- `BigWigWrite::write_rtreeindex` (`src/bigwig.rs` lines 1415-1553)
restricted to its block layout: build the tree with `get_rtreeindex`,
compute the per-level sizes, run the passes, and position every emitted
block in the file (the cir-tree header occupies the 48 bytes starting at
`index_start`). -/
def write_rtreeindex_blocks (sections : List Section) (block_size index_start : Nat) :
    List (Nat × RBlock) :=
  let r := get_rtreeindex sections block_size
  let index_offsets := calculate_offsets rt_fuel true r.2 r.1 (List.replicate r.2 0)
  positioned (index_start + 48)
    (write_rtree_passes block_size r.1 r.2 index_offsets r.2 (index_start + 48))

/-- Absolute position of the block serializing the node list at `path`. -/
def block_pos (blocks : List (Nat × RBlock)) (p : List Nat) : Option Nat :=
  (blocks.find? fun x => x.2.path == p).map fun x => x.1

/-- The child pointer written in entry `i` of the block at `path`. -/
def pointer_at (blocks : List (Nat × RBlock)) (p : List Nat) (i : Nat) : Option Nat :=
  match blocks.find? fun x => x.2.path == p with
  | none => none
  | some x =>
    match x.2.entries[i]? with
    | some (.nonLeafE _ _ _ _ child_offset) => some child_offset
    | _ => none

/-- Twelve equally sized, consecutive sections on one chromosome. -/
def c9_sections : List Section :=
  (List.range 12).map fun i => ⟨i * 40, 40, 0, i * 100, i * 100 + 100⟩

/-- C9: with `block_size = 3` and twelve sections the R-tree has two
non-leaf levels and two root children.  The root block (at byte 48, after
the cir-tree header) points correctly at its children (bytes 100 and 176),
and the first root child's block points correctly at its three leaf blocks
(e.g. 204); but the pointer written in the second root child's block is 280
— `write_tree` advanced the base past the first subtree by that subtree's
24-byte-entry block (76 bytes) instead of by its three 100-byte leaf blocks
— while the leaf block it must reference actually lies at byte 504.  A
reader following the written pointer (`search_overlapping_blocks`) would
seek into the middle of the first subtree's leaf region. -/
theorem C9_rtree_child_pointer_bug :
    pointer_at (write_rtreeindex_blocks c9_sections 3 0) [] 0 = some 100 ∧
    block_pos (write_rtreeindex_blocks c9_sections 3 0) [0] = some 100 ∧
    pointer_at (write_rtreeindex_blocks c9_sections 3 0) [] 1 = some 176 ∧
    block_pos (write_rtreeindex_blocks c9_sections 3 0) [1] = some 176 ∧
    pointer_at (write_rtreeindex_blocks c9_sections 3 0) [0] 0 = some 204 ∧
    block_pos (write_rtreeindex_blocks c9_sections 3 0) [0, 0] = some 204 ∧
    pointer_at (write_rtreeindex_blocks c9_sections 3 0) [1] 0 = some 280 ∧
    block_pos (write_rtreeindex_blocks c9_sections 3 0) [1, 0] = some 504 ∧
    (some 280 : Option Nat) ≠ some 504 := by
  refine ⟨by decide, by decide, by decide, by decide, by decide, by decide, by decide,
    by decide, by decide⟩

end Bigtools
